import Mathlib

/-!
Verification of the step-function memory optimizer.

A shallow embedding of the repository's `src/step_function` package:

* namespace `states` models `states.py` (the `Task`, `Parallel`, `Workflow`
  classes found there);
* namespace `builder` models `StepFunction._create_workflow` /
  `_create_state` from `step_function.py`;
* namespace `propagation` models the result-collection order of
  `StepFunction._set_workflow_payloads._set_state_input`;
* namespace `step_function` models `StepFunction._optimize_functions`
  (the per-function memory assignment) and
  `StepFunction.optimize_whole_step_function` (the constrained escalator).

Machine floats in the source carry only arithmetic that is exact here, so all
real-valued quantities are modelled with `ℚ`; `param_function` curves are
opaque functions `ℕ → ℚ`.  Methods of the `Task` class used by
`step_function.py` (`get_cost(memory)`, `get_execution_time(memory)`,
`increase_memory_size`) and `Workflow.get_critical_path` are not part of the
sources under `src/`; they are modelled from the spec where so marked.
-/

namespace states

/-- The `Task` state of `states.py`.  `execution_times` is the vector
`param_function(memory_space)` computed in `__init__`; `index` is the current
position on the memory axis. -/
structure Task where
  name : String
  memory_space : List ℕ
  execution_times : List ℚ
  index : ℕ
deriving Repr, DecidableEq

/-- `self.costs = self.execution_times * self.memory_space` (elementwise). -/
def Task.costs (t : Task) : List ℚ :=
  List.zipWith (fun e m => e * (m : ℚ)) t.execution_times t.memory_space

/-- `Task.get_execution_time`: the execution time at the current index. -/
def Task.get_execution_time (t : Task) : ℚ :=
  t.execution_times.getD t.index 0

/-- `Task.get_cost`: the cost at the current index. -/
def Task.get_cost (t : Task) : ℚ :=
  t.costs.getD t.index 0

/-- `Task.increase_memory`: move to the next index when possible, returning
whether the move happened (`if self.index + 1 < len(self.memory_space)`). -/
def Task.increase_memory (t : Task) : Bool × Task :=
  if t.index + 1 < t.memory_space.length then
    (true, { t with index := t.index + 1 })
  else
    (false, t)

/-- `Task.decrease_memory`: move to the previous index when possible.  The
source condition `self.index - 1 >= 0` is over Python integers, hence it is
`1 ≤ index`. -/
def Task.decrease_memory (t : Task) : Bool × Task :=
  if 1 ≤ t.index then
    (true, { t with index := t.index - 1 })
  else
    (false, t)

/-- The `State` sum type of `states.py`: a state is a `Task` or a `Parallel`
holding a list of branch workflows (a workflow being a list of states). -/
inductive State where
  | task (t : Task)
  | parallel (name : String) (branches : List (List State))

/-- A `Workflow` of `states.py` is its sequence of states. -/
abbrev Workflow := List State

/-- `State.get_execution_time`, dispatching on the variant.
For `Parallel`, the source runs `max_time = 0` and then
`max_time = max(max_time, branch.get_execution_time())` over the branches,
where a branch's time is the sum of its states' times. -/
def State.get_execution_time : State → ℚ
  | .task t => t.get_execution_time
  | .parallel _ bs =>
    (bs.attach.map fun b =>
      (b.1.attach.map fun s => State.get_execution_time s.1).sum).foldl
      (fun mx bt => max mx bt) 0
termination_by s => sizeOf s
decreasing_by
  all_goals simp_wf
  have hb := List.sizeOf_lt_of_mem b.2
  have hs := List.sizeOf_lt_of_mem s.2
  omega

/-- `State.get_cost`: a `Parallel`'s cost is the sum of its branches' costs,
a branch's cost being the sum of its states' costs. -/
def State.get_cost : State → ℚ
  | .task t => t.get_cost
  | .parallel _ bs =>
    (bs.attach.map fun b =>
      (b.1.attach.map fun s => State.get_cost s.1).sum).sum
termination_by s => sizeOf s
decreasing_by
  all_goals simp_wf
  have hb := List.sizeOf_lt_of_mem b.2
  have hs := List.sizeOf_lt_of_mem s.2
  omega

/-- `Workflow.get_execution_time`: the sum of the states' execution times. -/
def Workflow.get_execution_time (w : Workflow) : ℚ :=
  (w.map State.get_execution_time).sum

/-- `Workflow.get_cost`: the sum of the states' costs. -/
def Workflow.get_cost (w : Workflow) : ℚ :=
  (w.map State.get_cost).sum

/-- Concrete task used to instantiate the C7 theorem. -/
def parTask : Task := ⟨"A", [128], [2], 0⟩

/-- Concrete task used to instantiate the C10 theorem. -/
def idxTask : Task := ⟨"B", [128, 256], [4, 2], 0⟩

end states

namespace builder

mutual

/-- The JSON state definition consumed by `_create_state`, with the keys the
source reads: `Type`, `Next`, `End` (only its presence matters),
`Parameters.FunctionName`, `Branches`, `Iterator`, `ItemsPath`.  Keys whose
absence the source would turn into a Python `KeyError` are `Option`s;
`Branches` is read only for `Parallel` states and is kept as a plain list. -/
inductive StateDef where
  | mk (type_ : String) (next : Option String) (hasEnd : Bool)
      (functionName : Option String) (branches : List WorkflowDef)
      (iterator : Option WorkflowDef) (itemsPath : Option String)

/-- The workflow definition consumed by `_create_workflow`: a `StartAt` name
and a `States` mapping (modelled as an association list preserving JSON
object order). -/
inductive WorkflowDef where
  | mk (startAt : String) (states : List (String × StateDef))

end

def StateDef.type_ : StateDef → String
  | .mk ty _ _ _ _ _ _ => ty

def StateDef.next : StateDef → Option String
  | .mk _ nx _ _ _ _ _ => nx

def StateDef.functionName : StateDef → Option String
  | .mk _ _ _ fn _ _ _ => fn

def StateDef.branches : StateDef → List WorkflowDef
  | .mk _ _ _ _ bs _ _ => bs

def StateDef.iterator : StateDef → Option WorkflowDef
  | .mk _ _ _ _ _ it _ => it

def StateDef.itemsPath : StateDef → Option String
  | .mk _ _ _ _ _ _ ip => ip

def WorkflowDef.startAt : WorkflowDef → String
  | .mk sa _ => sa

def WorkflowDef.states : WorkflowDef → List (String × StateDef)
  | .mk _ sts => sts

/-- First-match association-list lookup, the Python `dict[key]` access
(Python dict keys are unique, so first match is the match). -/
def alookup {α : Type} : List (String × α) → String → Option α
  | [], _ => none
  | (k, v) :: rest, key => if k = key then some v else alookup rest key

/-- How a build can fail: the `StepFunctionError` the source raises, a Python
`KeyError` on a missing name, or fuel exhaustion (the source's `while 1` chain
walk does not terminate on a cyclic `Next` chain; fuel makes it total). -/
inductive BuildError where
  | stepFunctionError (msg : String)
  | keyError (key : String)
  | outOfFuel
deriving Repr, DecidableEq

/-- The message of the `StepFunctionError` raised for an unsupported type. -/
def unsupportedMsg : String := "Only Support Task, Parallel, Map State Types."

mutual

/-- The built `State` objects: `Task` keeps the function name, `Parallel`
keeps built branch workflows, `Map` stores the iterator definition and items
path unexpanded. -/
inductive BState where
  | task (name : String) (function_name : String)
  | parallel (name : String) (branches : List BWorkflow)
  | mapState (name : String) (workflow_def : WorkflowDef) (items_path : String)

/-- A built `Workflow`: its list of states. -/
inductive BWorkflow where
  | mk (states : List BState)

end

mutual

/-- `StepFunction._create_workflow`: walk the `Next` chain from `StartAt`,
creating each state in turn.  (The side effects on `function_tasks_dict` and
the AWS config manager are irrelevant to construction and not modelled.) -/
def create_workflow (fuel : ℕ) (wd : WorkflowDef) : Except BuildError BWorkflow :=
  match build_chain fuel wd wd.startAt with
  | .error e => .error e
  | .ok sts => .ok (.mk sts)
termination_by (fuel, sizeOf wd, 1)

/-- The `while 1` loop of `_create_workflow`: look the current name up in
`States` (`KeyError` if absent), create that state, then follow `Next`;
stop when `Next` is absent (the source breaks whether or not `End` is
present). -/
def build_chain (fuel : ℕ) (wd : WorkflowDef) (name : String) :
    Except BuildError (List BState) :=
  match fuel with
  | 0 => .error .outOfFuel
  | fuel' + 1 =>
    match alookup wd.states name with
    | none => .error (.keyError name)
    | some sd =>
      match create_state fuel' name sd with
      | .error e => .error e
      | .ok st =>
        match sd.next with
        | some nxt =>
          match build_chain fuel' wd nxt with
          | .error e => .error e
          | .ok rest => .ok (st :: rest)
        | none => .ok [st]
termination_by (fuel, sizeOf wd, 0)

/-- `StepFunction._create_workflow._create_state`: dispatch on `Type`;
anything other than `Task`, `Parallel`, `Map` raises `StepFunctionError`. -/
def create_state (fuel : ℕ) (name : String) (sd : StateDef) :
    Except BuildError BState :=
  if sd.type_ = "Task" then
    match sd.functionName with
    | none => .error (.keyError "FunctionName")
    | some fn => .ok (.task name fn)
  else if sd.type_ = "Parallel" then
    match create_branches fuel sd.branches with
    | .error e => .error e
    | .ok bs => .ok (.parallel name bs)
  else if sd.type_ = "Map" then
    match sd.iterator with
    | none => .error (.keyError "Iterator")
    | some it =>
      match sd.itemsPath with
      | none => .error (.keyError "ItemsPath")
      | some ip => .ok (.mapState name it ip)
  else
    .error (.stepFunctionError unsupportedMsg)
termination_by (fuel, sizeOf sd, 0)
decreasing_by
  cases sd
  simp [Prod.lex_iff, StateDef.branches]
  omega

/-- The `for branch_def in state_def["Branches"]` loop: build each branch in
order; the first failure aborts. -/
def create_branches (fuel : ℕ) (bs : List WorkflowDef) :
    Except BuildError (List BWorkflow) :=
  match bs with
  | [] => .ok []
  | b :: rest =>
    match create_workflow fuel b with
    | .error e => .error e
    | .ok w =>
      match create_branches fuel rest with
      | .error e => .error e
      | .ok ws => .ok (w :: ws)
termination_by (fuel, sizeOf bs, 0)

end

/-- A state with an unsupported `Type` is reached by the construction
traversal of the chain starting at `name`: either the current state is
unsupported, or it is a `Parallel` whose branch list reaches one after all
earlier branches build, or the current state builds and the chain continues
through `Next` to reach one.  (The traversal never enters a `Map`'s
`Iterator`.) -/
inductive BadReached : ℕ → WorkflowDef → String → Prop where
  | here (fuel : ℕ) (wd : WorkflowDef) (name : String) (sd : StateDef) :
      alookup wd.states name = some sd →
      sd.type_ ≠ "Task" → sd.type_ ≠ "Parallel" → sd.type_ ≠ "Map" →
      BadReached (fuel + 1) wd name
  | inBranch (fuel : ℕ) (wd : WorkflowDef) (name : String) (sd : StateDef)
      (pre : List WorkflowDef) (b : WorkflowDef) (post : List WorkflowDef)
      (ws : List BWorkflow) :
      alookup wd.states name = some sd →
      sd.type_ = "Parallel" →
      sd.branches = pre ++ b :: post →
      create_branches fuel pre = .ok ws →
      BadReached fuel b b.startAt →
      BadReached (fuel + 1) wd name
  | next (fuel : ℕ) (wd : WorkflowDef) (name : String) (sd : StateDef)
      (st : BState) (nxt : String) :
      alookup wd.states name = some sd →
      create_state fuel name sd = .ok st →
      sd.next = some nxt →
      BadReached fuel wd nxt →
      BadReached (fuel + 1) wd name

/-- A two-state definition whose second state has the unsupported type
`Choice` but is never reached from `StartAt`. -/
def unreachableBadDef : WorkflowDef :=
  .mk "A"
    [("A", .mk "Task" none true (some "fnA") [] none none),
     ("B", .mk "Choice" none true none [] none none)]

/-- A one-state definition whose start state has the unsupported type
`Choice`. -/
def startBadDef : WorkflowDef :=
  .mk "A" [("A", .mk "Choice" none true none [] none none)]

end builder

namespace propagation

/-- Result collection for a `Parallel` state in `_set_state_input`: branch
outputs are appended in the order `concurrent.futures.as_completed` yields
finished futures.  `completion_order` lists branch indices in completion
order; `branch_outputs` lists each branch's output in branch-definition
order. -/
def parallel_state_output (branch_outputs : List String)
    (completion_order : List ℕ) : List String :=
  completion_order.map fun i => branch_outputs.getD i ""

/-- Result collection for a `Map` state in `_set_state_input`: identical
`as_completed` pattern over iteration futures. -/
def map_state_output (iteration_outputs : List String)
    (completion_order : List ℕ) : List String :=
  completion_order.map fun i => iteration_outputs.getD i ""

end propagation

namespace step_function

/-- Modelled from the spec: the `Task` variant used by `step_function.py`
(not under `src/`), with `param_function` an opaque fitted curve and the
three memory fields set by per-function optimization (§3 of the spec). -/
structure Task where
  function_name : String
  param_function : ℕ → ℚ
  memory_size : ℕ
  initial_memory_size : ℕ
  max_memory_size : ℕ

instance : Inhabited Task := ⟨⟨"", fun _ => 0, 0, 0, 0⟩⟩

/-- Modelled from the spec: `execution_time(m) = param_function(m)` (§3). -/
def Task.get_execution_time_at (t : Task) (m : ℕ) : ℚ := t.param_function m

/-- `task.get_execution_time()` at the current memory size. -/
def Task.get_execution_time (t : Task) : ℚ :=
  t.get_execution_time_at t.memory_size

/-- Modelled from the spec: `cost(m) = execution_time(m) × m` (§3). -/
def Task.get_cost_at (t : Task) (m : ℕ) : ℚ := t.param_function m * (m : ℚ)

/-- `task.get_cost()` at the current memory size. -/
def Task.get_cost (t : Task) : ℚ := t.get_cost_at t.memory_size

/-- Modelled from the spec: `increase_memory_size` bumps `memory_size` by
the increment (§4.E step 5). -/
def Task.increase_memory_size (t : Task) (inc : ℕ) : Task :=
  { t with memory_size := t.memory_size + inc }

/-- Task lookup in the store of task objects.  Python object identity is
modelled by position in the store, which plays the role of the references
shared between the workflow tree and `function_tasks_dict`. -/
def taskAt (tasks : List Task) (id : ℕ) : Task := tasks.getD id default

/-- The workflow tree, with `Task` states referencing the store by position
and a workflow being a chain of states fused into the constructors.
`Parallel` branches and `Map` iterations are child workflows. -/
inductive Workflow where
  | nil : Workflow
  | task (id : ℕ) (rest : Workflow) : Workflow
  | parallel (branches : List Workflow) (rest : Workflow) : Workflow
  | mapState (iterations : List Workflow) (rest : Workflow) : Workflow

/-- Select the child with the maximum time, first in list order on ties
(spec §4.D tie-break). -/
def pickMax (cps : List (List ℕ × ℚ)) : List ℕ × ℚ :=
  match cps with
  | [] => ([], 0)
  | c :: cs => cs.foldl (fun best x => if best.2 < x.2 then x else best) c

/-- Modelled from the spec: `Workflow.get_critical_path` (§4.D, not under
`src/`): a workflow concatenates its states' critical paths and sums their
times; a task contributes itself with `param_function(memory_size)`; a
`Parallel`/`Map` contributes its child of maximum time. -/
def get_critical_path (tasks : List Task) : Workflow → List ℕ × ℚ
  | .nil => ([], 0)
  | .task id rest =>
    let r := get_critical_path tasks rest
    (id :: r.1, (taskAt tasks id).get_execution_time + r.2)
  | .parallel bs rest =>
    let best := pickMax (bs.attach.map fun b => get_critical_path tasks b.1)
    let r := get_critical_path tasks rest
    (best.1 ++ r.1, best.2 + r.2)
  | .mapState its rest =>
    let best := pickMax (its.attach.map fun b => get_critical_path tasks b.1)
    let r := get_critical_path tasks rest
    (best.1 ++ r.1, best.2 + r.2)
termination_by w => sizeOf w
decreasing_by
  all_goals simp_wf
  all_goals
    have hb := List.sizeOf_lt_of_mem b.2
    omega

/-- The `StepFunctionError` exception class. -/
structure StepFunctionError where
  msg : String
deriving Repr, DecidableEq

/-- The message of the infeasibility error (line 348). -/
def thresholdMsg : String := "Execution time threshold too low."

/-- The state the escalator operates on: the store of task objects, the
`function_tasks_dict` mapping a function name to the positions of its tasks,
the workflow tree, and the `cost_increases` dict. -/
structure OptState where
  tasks : List Task
  function_tasks_dict : List (String × List ℕ)
  workflow : Workflow
  cost_increases : List (String × ℚ)

/-- `function_tasks_dict[f]`, defaulting to no tasks. -/
def dictIds (s : OptState) (f : String) : List ℕ :=
  (builder.alookup s.function_tasks_dict f).getD []

/-- `cost_increases[f]`.  In the source flow the key is always present
(every function whose tasks exist was initialized at lines 302-308), so the
Python `KeyError` on an absent key is not modelled; absent keys read 0. -/
def costOf (s : OptState) (f : String) : ℚ :=
  (builder.alookup s.cost_increases f).getD 0

/-- Python dict write `d[k] = v`: update the first matching key in place, or
append the key. -/
def assocSet {α : Type} : List (String × α) → String → α → List (String × α)
  | [], k, v => [(k, v)]
  | (k', v') :: rest, k, v =>
    if k' = k then (k', v) :: rest else (k', v') :: assocSet rest k v

/-- `time_reductions[fn] += v` with dict insertion-order semantics: add to
an existing key in place, else append the key. -/
def addReduction : List (String × ℚ) → String → ℚ → List (String × ℚ)
  | [], n, v => [(n, v)]
  | (k, x) :: rest, n, v =>
    if k = n then (k, x + v) :: rest else (k, x) :: addReduction rest n v

/-- The body of the loop over critical-path tasks (lines 315-324): skip a
task whose bumped memory would exceed its cap
(`if task.memory_size + memory_increment > task.max_memory_size`), else
accumulate `time(memory) - time(memory + increment)` under the task's
function name. -/
def redStep (inc : ℕ) (ts : List Task) (acc : List (String × ℚ)) (id : ℕ) :
    List (String × ℚ) :=
  let t := taskAt ts id
  if t.max_memory_size < t.memory_size + inc then acc
  else
    addReduction acc t.function_name
      (t.get_execution_time - t.get_execution_time_at (t.memory_size + inc))

/-- The `time_reductions` dict computed by one loop iteration. -/
def timeReductions (inc : ℕ) (s : OptState) : List (String × ℚ) :=
  (get_critical_path s.tasks s.workflow).1.foldl (redStep inc s.tasks) []

/-- `ratio < lowest_ratio` where `lowest_ratio` starts at `float('inf')`
(modelled as `none`). -/
def ratioLt (r : ℚ) : Option ℚ → Bool
  | none => true
  | some l => decide (r < l)

/-- The selection loop (lines 327-337): iterate the `time_reductions` dict
in insertion order; for entries with strictly positive reduction compare
`cost_increases[f] / time_reductions[f]` against the lowest ratio so far,
updating only on strict improvement. -/
def selectBest (cost : String → ℚ) :
    List (String × ℚ) → Option String × Option ℚ → Option String × Option ℚ
  | [], acc => acc
  | (f, red) :: rest, acc =>
    if 0 < red then
      if ratioLt (cost f / red) acc.2 then
        selectBest cost rest (some f, some (cost f / red))
      else
        selectBest cost rest acc
    else
      selectBest cost rest acc

/-- The `best_function` produced by one loop iteration. -/
def chosenFunction (inc : ℕ) (s : OptState) : Option String :=
  (selectBest (costOf s) (timeReductions inc s) (none, none)).1

/-- The bump loop (lines 341-346): for each task of the chosen function, in
dict order, call `increase_memory_size`, then accumulate
`get_cost(memory_size + increment) - get_cost()` — both read at the task's
new memory — into the function's refreshed `cost_increases` entry. -/
def bumpTasks (inc : ℕ) : List ℕ → List Task × ℚ → List Task × ℚ
  | [], acc => acc
  | id :: ids, (ts, c) =>
    let t := (taskAt ts id).increase_memory_size inc
    bumpTasks inc ids
      (ts.set id t, c + (t.get_cost_at (t.memory_size + inc) - t.get_cost))

/-- One iteration of the escalation loop body (lines 312-348): compute
`time_reductions`, select `best_function`; when Python's
`if best_function:` is truthy (a `some` of a non-empty name) bump every task
of that function and refresh its `cost_increases` entry, else raise
`StepFunctionError`.  An error leaves the state unchanged because the source
raises before mutating anything. -/
def escalateStep (inc : ℕ) (s : OptState) :
    OptState × Option StepFunctionError :=
  match chosenFunction inc s with
  | some best =>
    if best = "" then (s, some ⟨thresholdMsg⟩)
    else
      let r := bumpTasks inc (dictIds s best) (s.tasks, 0)
      ({ s with tasks := r.1,
                cost_increases := assocSet s.cost_increases best r.2 }, none)
  | none => (s, some ⟨thresholdMsg⟩)

/-- The `while critical_path_time > threshold` loop (lines 311-353).  Fuel
makes the source loop total: `none` means fuel ran out; otherwise the final
state is returned together with the raised error, if any (a raise leaves the
state as it was at the raise). -/
def escalateLoop (inc : ℕ) (thr : ℚ) (fuel : ℕ) (s : OptState) :
    Option (OptState × Option StepFunctionError) :=
  if (get_critical_path s.tasks s.workflow).2 ≤ thr then some (s, none)
  else
    match fuel with
    | 0 => none
    | fuel' + 1 =>
      match escalateStep inc s with
      | (s', some e) => some (s', some e)
      | (s', none) => escalateLoop inc thr fuel' s'

/-- The `cost_increases` initialization (lines 301-308). -/
def initCostIncreases (inc : ℕ) (tasks : List Task)
    (dict : List (String × List ℕ)) : List (String × ℚ) :=
  dict.map fun p =>
    (p.1,
      p.2.foldl
        (fun c id =>
          let t := taskAt tasks id
          c + (t.get_cost_at (t.memory_size + inc) - t.get_cost)) 0)

/-- `optimize_whole_step_function` (lines 287-356): return unchanged when no
threshold is configured (lines 293-295), else initialize `cost_increases`
and run the escalation loop. -/
def optimize_whole_step_function (inc : ℕ) (thr? : Option ℚ) (fuel : ℕ)
    (s : OptState) : Option (OptState × Option StepFunctionError) :=
  match thr? with
  | none => some (s, none)
  | some thr =>
    escalateLoop inc thr fuel
      { s with cost_increases :=
          initCostIncreases inc s.tasks s.function_tasks_dict }

/-- The invariant tying store, dict and memory bounds together: every task's
memory lies between its initial and its max; every dict entry lists valid,
duplicate-free positions of tasks named by its key, all sharing one memory
size and one cap; every stored task is listed under its own function name. -/
def Inv (s : OptState) : Prop :=
  (∀ t ∈ s.tasks, t.initial_memory_size ≤ t.memory_size ∧
      t.memory_size ≤ t.max_memory_size) ∧
  (∀ p ∈ s.function_tasks_dict,
      (∀ id ∈ p.2, id < s.tasks.length ∧
          (taskAt s.tasks id).function_name = p.1) ∧
      p.2.Nodup ∧
      (∀ i ∈ p.2, ∀ j ∈ p.2,
        (taskAt s.tasks i).memory_size = (taskAt s.tasks j).memory_size ∧
        (taskAt s.tasks i).max_memory_size = (taskAt s.tasks j).max_memory_size)) ∧
  (∀ id, id < s.tasks.length → id ∈ dictIds s (taskAt s.tasks id).function_name)

/-- Per-function headroom `(max_memory - memory) / increment`, read off the
first task of each dict entry (all tasks of one function share those values
under `Inv`); bounds the number of bumping iterations. -/
def entryHeadroom (inc : ℕ) (ts : List Task) : List ℕ → ℕ
  | [] => 0
  | id :: _ =>
    ((taskAt ts id).max_memory_size - (taskAt ts id).memory_size) / inc

def headroom (inc : ℕ) (s : OptState) : ℕ :=
  (s.function_tasks_dict.map fun p => entryHeadroom inc s.tasks p.2).sum

def entryHeadroomInit (inc : ℕ) (ts : List Task) : List ℕ → ℕ
  | [] => 0
  | id :: _ =>
    ((taskAt ts id).max_memory_size - (taskAt ts id).initial_memory_size) / inc

/-- Per-function headroom measured from `initial_memory_size`: the claimed
iteration bound `(max_memory - initial_memory) / increment` summed over
functions. -/
def headroomInit (inc : ℕ) (s : OptState) : ℕ :=
  (s.function_tasks_dict.map fun p => entryHeadroomInit inc s.tasks p.2).sum

/-- Python `xs[-n:]` (note: `xs[-0:]` is the whole list). -/
def tailSlice (xs : List ℚ) (n : ℕ) : List ℚ :=
  if n = 0 then xs else xs.drop (xs.length - n)

/-- `np.argmin`: the index of the first occurrence of the minimum. -/
def argminFirst : List ℚ → ℕ
  | [] => 0
  | [_] => 0
  | x :: y :: xs =>
    let j := argminFirst (y :: xs)
    if x ≤ (y :: xs).getD j 0 then 0 else j + 1

/-- The tail of `_optimize_one_function` (lines 256-264): take the last
`len(memory_space)` entries of `collective_costs`
(`collective_costs[-len(memory_space):]`), locate the first cost minimum
(`np.argmin`), and assign `memory_space[min_index]` as both `memory_size`
and `initial_memory_size` and `memory_space[-1]` as `max_memory_size` to
every task of the function.  (The accumulation of `collective_costs` is done
by the external Parrotfish sampler, out of scope per the spec.) -/
def optimize_one_function_assign (tasks : List Task)
    (collective_costs : List ℚ) (memory_space : List ℕ) : List Task :=
  let costs := tailSlice collective_costs memory_space.length
  let min_index := argminFirst costs
  let min_memory := memory_space.getD min_index 0
  tasks.map fun t =>
    { t with memory_size := min_memory,
             initial_memory_size := min_memory,
             max_memory_size := memory_space.getD (memory_space.length - 1) 0 }

/-- C3 counterexample, task for function F: time 100 below 256 MB, 90 at or
above; currently at 128 MB with cap 256. -/
def cexTaskF : Task := ⟨"F", fun m => if m ≤ 128 then 100 else 90, 128, 128, 256⟩

/-- C3 counterexample, task for function G: constant time 100, capped. -/
def cexTaskG : Task := ⟨"G", fun _ => 100, 256, 256, 256⟩

/-- C3 counterexample: a `Parallel` with branches F and G, both of time 100,
so the critical path is the F branch (first on tie) but the workflow time
stays 100 after F is bumped. -/
def cexState : OptState :=
  ⟨[cexTaskF, cexTaskG],
   [("F", [0]), ("G", [1])],
   .parallel [.task 0 .nil, .task 1 .nil] .nil,
   [("F", 0), ("G", 0)]⟩

/-- C6 witness: a single task at its cap with time 80. -/
def infTask : Task := ⟨"f", fun _ => 80, 256, 256, 256⟩

/-- C6 witness state (spec scenario 5). -/
def infState : OptState := ⟨[infTask], [("f", [0])], .task 0 .nil, [("f", 0)]⟩

/-- C1/C3/C8 witness task. -/
def wTask1 : Task := ⟨"f", fun _ => 10, 128, 128, 256⟩

/-- C1/C3/C8 witness state. -/
def wState1 : OptState := ⟨[wTask1], [("f", [0])], .task 0 .nil, [("f", 0)]⟩

/-- C4 witness, task for F: time 100 below 256 MB, 50 at or above
(time reduction 50). -/
def ratTaskF : Task := ⟨"F", fun m => if m ≤ 128 then 100 else 50, 128, 128, 256⟩

/-- C4 witness, task for G: time 60 below 256 MB, 40 at or above
(time reduction 20). -/
def ratTaskG : Task := ⟨"G", fun m => if m ≤ 128 then 60 else 40, 128, 128, 256⟩

/-- C4 witness state (spec scenario 4): `cost_increase` 10 for F and 2 for
G, so the ratios are 0.2 and 0.1 and G must be chosen. -/
def ratState : OptState :=
  ⟨[ratTaskF, ratTaskG],
   [("F", [0]), ("G", [1])],
   .task 0 (.task 1 .nil),
   [("F", 10), ("G", 2)]⟩

end step_function

namespace states

theorem State.get_execution_time_parallel (n : String) (bs : List (List State)) :
    State.get_execution_time (.parallel n bs) =
      (bs.map Workflow.get_execution_time).foldl (fun mx bt => max mx bt) 0 := by
  rw [State.get_execution_time]
  congr 1
  rw [List.map_eq_map_iff.mpr, List.attach_map_coe]
  intro b _
  rw [Workflow.get_execution_time, List.attach_map_coe]

theorem State.get_cost_parallel (n : String) (bs : List (List State)) :
    State.get_cost (.parallel n bs) = (bs.map Workflow.get_cost).sum := by
  rw [State.get_cost]
  congr 1
  rw [List.map_eq_map_iff.mpr, List.attach_map_coe]
  intro b _
  rw [Workflow.get_cost, List.attach_map_coe]

theorem foldl_max_init_le (l : List ℚ) (init : ℚ) :
    init ≤ l.foldl (fun mx bt => max mx bt) init := by
  induction l generalizing init with
  | nil => exact le_refl _
  | cons x xs ih => exact le_trans (le_max_left _ _) (ih (max init x))

theorem foldl_max_le_of_mem {l : List ℚ} {x : ℚ} (hx : x ∈ l) (init : ℚ) :
    x ≤ l.foldl (fun mx bt => max mx bt) init := by
  induction l generalizing init with
  | nil => cases hx
  | cons y ys ih =>
    rcases List.mem_cons.mp hx with h | h
    · subst h
      exact le_trans (le_max_right _ _) (foldl_max_init_le ys (max init x))
    · exact ih h (max init y)

theorem foldl_max_mem (l : List ℚ) (init : ℚ) :
    l.foldl (fun mx bt => max mx bt) init = init ∨
      l.foldl (fun mx bt => max mx bt) init ∈ l := by
  induction l generalizing init with
  | nil => exact Or.inl rfl
  | cons x xs ih =>
    rcases ih (max init x) with h | h
    · rcases le_total x init with hxi | hix
      · exact Or.inl (by simpa [max_eq_left hxi] using h)
      · refine Or.inr ?_
        rw [List.foldl_cons, h, max_eq_right hix]
        exact List.mem_cons_self _ _
    · exact Or.inr (List.mem_cons_of_mem _ h)

end states

/-- C7: a Workflow's execution time is the sum of its states' execution
times and its cost the sum of their costs; a Parallel's execution time is
the maximum branch execution time (it bounds every branch's time, and for a
non-empty branch list with non-negative branch times some branch attains
it) and its cost is the sum of branch costs; an empty branch list gives
time 0 and cost 0. -/
theorem c7_series_sum_parallel_max :
    (∀ w : states.Workflow,
        states.Workflow.get_execution_time w =
          (w.map states.State.get_execution_time).sum ∧
        states.Workflow.get_cost w = (w.map states.State.get_cost).sum) ∧
    (∀ (n : String) (bs : List (List states.State)),
        states.State.get_cost (.parallel n bs) =
          (bs.map states.Workflow.get_cost).sum) ∧
    (∀ (n : String) (bs : List (List states.State)), ∀ b ∈ bs,
        states.Workflow.get_execution_time b ≤
          states.State.get_execution_time (.parallel n bs)) ∧
    (∀ n : String,
        states.State.get_execution_time (states.State.parallel n []) = 0 ∧
        states.State.get_cost (states.State.parallel n []) = 0) ∧
    (∀ (n : String) (bs : List (List states.State)), bs ≠ [] →
        (∀ b ∈ bs, 0 ≤ states.Workflow.get_execution_time b) →
        ∃ b ∈ bs, states.State.get_execution_time (.parallel n bs) =
          states.Workflow.get_execution_time b) := by
  refine ⟨fun w => ⟨rfl, rfl⟩, fun n bs => states.State.get_cost_parallel n bs,
    ?_, ?_, ?_⟩
  · intro n bs b hb
    rw [states.State.get_execution_time_parallel]
    exact states.foldl_max_le_of_mem (List.mem_map_of_mem _ hb) 0
  · intro n
    refine ⟨?_, ?_⟩
    · rw [states.State.get_execution_time_parallel]; rfl
    · rw [states.State.get_cost_parallel]; rfl
  · intro n bs hne hpos
    rw [states.State.get_execution_time_parallel]
    rcases states.foldl_max_mem (bs.map states.Workflow.get_execution_time) 0
      with h | h
    · obtain ⟨b, hb⟩ := List.exists_mem_of_ne_nil bs hne
      refine ⟨b, hb, ?_⟩
      have h1 : states.Workflow.get_execution_time b ≤ 0 := by
        have h2 := states.foldl_max_le_of_mem
          (List.mem_map_of_mem states.Workflow.get_execution_time hb) (0 : ℚ)
        rw [h] at h2
        exact h2
      have h3 := hpos b hb
      rw [h]
      linarith
    · obtain ⟨b, hb, hbe⟩ := List.mem_map.mp h
      exact ⟨b, hb, hbe.symm⟩

/-- Witness for C7 at a one-branch Parallel whose branch holds one task. -/
theorem c7_witness :
    (([[states.State.task states.parTask]] : List (List states.State)) ≠ []) ∧
    (∀ b ∈ [[states.State.task states.parTask]],
        0 ≤ states.Workflow.get_execution_time b) ∧
    ∃ b ∈ [[states.State.task states.parTask]],
      states.State.get_execution_time
          (.parallel "P" [[states.State.task states.parTask]]) =
        states.Workflow.get_execution_time b := by
  have hne : ([[states.State.task states.parTask]] : List (List states.State)) ≠ [] := by
    simp
  have hpos : ∀ b ∈ [[states.State.task states.parTask]],
      0 ≤ states.Workflow.get_execution_time b := by
    intro b hb
    simp only [List.mem_singleton] at hb
    subst hb
    simp [states.Workflow.get_execution_time, states.State.get_execution_time,
      states.Task.get_execution_time, states.parTask]
  exact ⟨hne, hpos, c7_series_sum_parallel_max.2.2.2.2 "P" _ hne hpos⟩

/-- C10: `increase_memory` returns True and advances the index by one
exactly when the index is not at the last position of the memory axis, else
returns False leaving the index unchanged; `decrease_memory` returns False
leaving the index unchanged at index 0 and else moves back one; for an
in-range index both operations keep the index within
[0, len(memory_space) - 1]. -/
theorem c10_memory_index_moves (t : states.Task)
    (hidx : t.index < t.memory_space.length) :
    (t.index + 1 < t.memory_space.length →
        t.increase_memory = (true, { t with index := t.index + 1 })) ∧
    (¬ t.index + 1 < t.memory_space.length →
        t.increase_memory = (false, t)) ∧
    (t.index = 0 → t.decrease_memory = (false, t)) ∧
    (1 ≤ t.index →
        t.decrease_memory = (true, { t with index := t.index - 1 })) ∧
    t.increase_memory.2.index < t.memory_space.length ∧
    t.decrease_memory.2.index < t.memory_space.length := by
  unfold states.Task.increase_memory states.Task.decrease_memory
  refine ⟨fun h => by rw [if_pos h], fun h => by rw [if_neg h],
    fun h => by rw [if_neg (by omega)], fun h => by rw [if_pos h], ?_, ?_⟩
  · split
    · simpa using (by omega : t.index + 1 < t.memory_space.length)
    · simpa using hidx
  · split
    · simpa using (by omega : t.index - 1 < t.memory_space.length)
    · simpa using hidx

/-- Witness for C10 at a concrete two-entry memory axis with index 0. -/
theorem c10_witness :
    states.idxTask.index < states.idxTask.memory_space.length ∧
    states.idxTask.increase_memory =
      (true, { states.idxTask with index := states.idxTask.index + 1 }) ∧
    states.idxTask.decrease_memory = (false, states.idxTask) :=
  ⟨by decide,
   (c10_memory_index_moves states.idxTask (by decide)).1 (by decide),
   (c10_memory_index_moves states.idxTask (by decide)).2.2.1 rfl⟩

/-- C2 is false of the code, and the spec states the intended behaviour:
`as_completed` yields futures in completion order, so `_set_state_input`
collects branch outputs in completion order, not branch-definition order;
with two branches whose second completes first, the output array is
reversed.  The identical pattern reorders Map iteration outputs. -/
theorem c2_completion_order_bug :
    propagation.parallel_state_output ["\"x\"", "\"y\""] [1, 0] =
      ["\"y\"", "\"x\""] ∧
    propagation.parallel_state_output ["\"x\"", "\"y\""] [1, 0] ≠
      ["\"x\"", "\"y\""] ∧
    propagation.map_state_output ["1", "2"] [1, 0] = ["2", "1"] ∧
    propagation.map_state_output ["1", "2"] [1, 0] ≠ ["1", "2"] ∧
    List.Perm [1, 0] (List.range 2) :=
  ⟨rfl, by decide, rfl, by decide, by decide⟩

namespace step_function

theorem argminFirst_lt_length : ∀ l : List ℚ, l ≠ [] → argminFirst l < l.length
  | [], h => absurd rfl h
  | [_], _ => by simp [argminFirst]
  | x :: y :: xs, _ => by
    have ih := argminFirst_lt_length (y :: xs) (by simp)
    rw [argminFirst]
    split
    · simp
    · simpa using Nat.succ_lt_succ ih

theorem argminFirst_is_min :
    ∀ (l : List ℚ) (j : ℕ), j < l.length →
      l.getD (argminFirst l) 0 ≤ l.getD j 0
  | [], j, h => absurd h (by simp)
  | [x], j, h => by
    have hj : j = 0 := by simpa using h
    subst hj
    simp [argminFirst]
  | x :: y :: xs, j, h => by
    rw [argminFirst]
    split
    · rename_i h1
      match j with
      | 0 => simp
      | k + 1 =>
        have hk : k < (y :: xs).length := by simpa using h
        have ih := argminFirst_is_min (y :: xs) k hk
        simpa using le_trans h1 ih
    · rename_i h1
      push_neg at h1
      match j with
      | 0 => simpa using le_of_lt h1
      | k + 1 =>
        have hk : k < (y :: xs).length := by simpa using h
        have ih := argminFirst_is_min (y :: xs) k hk
        simpa using ih

theorem argminFirst_is_first :
    ∀ (l : List ℚ) (j : ℕ), j < argminFirst l →
      l.getD (argminFirst l) 0 < l.getD j 0
  | [], j, h => absurd h (by simp [argminFirst])
  | [x], j, h => absurd h (by simp [argminFirst])
  | x :: y :: xs, j, h => by
    rw [argminFirst] at h ⊢
    by_cases hc : x ≤ (y :: xs).getD (argminFirst (y :: xs)) 0
    · rw [if_pos hc] at h
      omega
    · rw [if_neg hc] at h ⊢
      push_neg at hc
      match j with
      | 0 => simpa using hc
      | k + 1 =>
        have hk : k < argminFirst (y :: xs) := by omega
        have ih := argminFirst_is_first (y :: xs) k hk
        simpa using ih

/-- C5: after `collective_costs` has been accumulated, the per-function
optimizer picks the first (smallest) index minimizing `collective_costs`
(`np.argmin` returns the first minimum) and gives every task of the function
`memory_size = initial_memory_size = memory_space[min_index]` and
`max_memory_size = memory_space[-1]`. -/
theorem c5_argmin_assignment (tasks : List Task) (collective_costs : List ℚ)
    (memory_space : List ℕ) (hne : memory_space ≠ [])
    (hlen : collective_costs.length = memory_space.length) :
    argminFirst collective_costs < collective_costs.length ∧
    (∀ j < collective_costs.length,
        collective_costs.getD (argminFirst collective_costs) 0 ≤
          collective_costs.getD j 0) ∧
    (∀ j < argminFirst collective_costs,
        collective_costs.getD (argminFirst collective_costs) 0 <
          collective_costs.getD j 0) ∧
    ∀ t ∈ optimize_one_function_assign tasks collective_costs memory_space,
      t.memory_size = memory_space.getD (argminFirst collective_costs) 0 ∧
      t.initial_memory_size =
        memory_space.getD (argminFirst collective_costs) 0 ∧
      t.max_memory_size = memory_space.getD (memory_space.length - 1) 0 := by
  have hcne : collective_costs ≠ [] := by
    intro hc
    rw [hc] at hlen
    exact hne (List.length_eq_zero.mp hlen.symm)
  have hslice : tailSlice collective_costs memory_space.length =
      collective_costs := by
    rw [tailSlice, ← hlen]
    split
    · rfl
    · simp
  refine ⟨argminFirst_lt_length collective_costs hcne,
    fun j hj => argminFirst_is_min collective_costs j hj,
    fun j hj => argminFirst_is_first collective_costs j hj, ?_⟩
  intro t ht
  rw [optimize_one_function_assign] at ht
  simp only [hslice, List.mem_map] at ht
  obtain ⟨t0, _, rfl⟩ := ht
  exact ⟨rfl, rfl, rfl⟩

end step_function

/-- Witness for C5 on a three-point axis whose cost minimum is shared by
indices 1 and 2: the smaller index (memory 256) is chosen and the cap is the
last axis entry 512. -/
theorem c5_witness :
    (([128, 256, 512] : List ℕ) ≠ []) ∧
    ([(5 : ℚ), 3, 3].length = ([128, 256, 512] : List ℕ).length) ∧
    ∀ t ∈ step_function.optimize_one_function_assign [step_function.wTask1]
        [(5 : ℚ), 3, 3] [128, 256, 512],
      t.memory_size = 256 ∧ t.initial_memory_size = 256 ∧
        t.max_memory_size = 512 := by
  refine ⟨by simp, by simp, ?_⟩
  intro t ht
  have hmin : step_function.argminFirst [(5 : ℚ), 3, 3] = 1 := by
    norm_num [step_function.argminFirst]
  have h := (step_function.c5_argmin_assignment [step_function.wTask1]
    [(5 : ℚ), 3, 3] [128, 256, 512] (by simp) (by simp)).2.2.2 t ht
  rw [hmin] at h
  simpa using h

namespace builder

theorem create_state_unsupported (fuel : ℕ) (name : String) (sd : StateDef)
    (h1 : sd.type_ ≠ "Task") (h2 : sd.type_ ≠ "Parallel")
    (h3 : sd.type_ ≠ "Map") :
    create_state fuel name sd = .error (.stepFunctionError unsupportedMsg) := by
  rw [create_state, if_neg h1, if_neg h2, if_neg h3]

theorem create_state_parallel_error (fuel : ℕ) (name : String) (sd : StateDef)
    (e : BuildError) (hty : sd.type_ = "Parallel")
    (hbr : create_branches fuel sd.branches = .error e) :
    create_state fuel name sd = .error e := by
  have hne : sd.type_ ≠ "Task" := by rw [hty]; decide
  rw [create_state, if_neg hne, if_pos hty, hbr]

theorem build_chain_state_error (fuel : ℕ) (wd : WorkflowDef) (name : String)
    (sd : StateDef) (e : BuildError) (hl : alookup wd.states name = some sd)
    (hs : create_state fuel name sd = .error e) :
    build_chain (fuel + 1) wd name = .error e := by
  rw [build_chain, hl]
  simp only [hs]

theorem build_chain_next_error (fuel : ℕ) (wd : WorkflowDef) (name : String)
    (sd : StateDef) (st : BState) (nxt : String) (e : BuildError)
    (hl : alookup wd.states name = some sd)
    (hs : create_state fuel name sd = .ok st) (hn : sd.next = some nxt)
    (hb : build_chain fuel wd nxt = .error e) :
    build_chain (fuel + 1) wd name = .error e := by
  rw [build_chain, hl]
  simp only [hs, hn, hb]

theorem create_branches_error (fuel : ℕ) (b : WorkflowDef)
    (post : List WorkflowDef) (e : BuildError)
    (hb : create_workflow fuel b = .error e) :
    ∀ (pre : List WorkflowDef) (ws : List BWorkflow),
      create_branches fuel pre = .ok ws →
      create_branches fuel (pre ++ b :: post) = .error e
  | [], ws, _ => by
    rw [List.nil_append, create_branches, hb]
  | p :: ps, ws, hpre => by
    rw [create_branches] at hpre
    rcases hwp : create_workflow fuel p with e' | w
    · rw [hwp] at hpre
      cases hpre
    · rw [hwp] at hpre
      rcases hps : create_branches fuel ps with e' | ws'
      · rw [hps] at hpre
        cases hpre
      · rw [List.cons_append, create_branches, hwp,
          create_branches_error fuel b post e hb ps ws' hps]

theorem bad_reached_build_error {fuel : ℕ} {wd : WorkflowDef} {name : String}
    (h : BadReached fuel wd name) :
    build_chain fuel wd name = .error (.stepFunctionError unsupportedMsg) := by
  induction h with
  | here fuel wd name sd hl h1 h2 h3 =>
    exact build_chain_state_error fuel wd name sd _ hl
      (create_state_unsupported fuel name sd h1 h2 h3)
  | inBranch fuel wd name sd pre b post ws hl hty hbr hpre _ ih =>
    have hwf : create_workflow fuel b =
        .error (.stepFunctionError unsupportedMsg) := by
      rw [create_workflow, ih]
    have hbrs := create_branches_error fuel b post _ hwf pre ws hpre
    rw [← hbr] at hbrs
    exact build_chain_state_error fuel wd name sd _ hl
      (create_state_parallel_error fuel name sd _ hty hbrs)
  | next fuel wd name sd st nxt hl hs hn _ ih =>
    exact build_chain_next_error fuel wd name sd st nxt _ hl hs hn ih

end builder

/-- C9 is false as stated: this two-state definition contains a state of the
unsupported type `Choice`, yet building succeeds because the chain from
`StartAt` ends at state A and never visits B. -/
theorem c9_counterexample :
    (∃ p ∈ builder.unreachableBadDef.states,
        p.2.type_ ≠ "Task" ∧ p.2.type_ ≠ "Parallel" ∧ p.2.type_ ≠ "Map") ∧
    builder.create_workflow 2 builder.unreachableBadDef =
      .ok (.mk [.task "A" "fnA"]) := by
  constructor
  · refine ⟨("B", .mk "Choice" none true none [] none none), ?_, by decide,
      by decide, by decide⟩
    simp [builder.unreachableBadDef, builder.WorkflowDef.states]
  · have h2 : (2 : ℕ) = 1 + 1 := rfl
    rw [builder.create_workflow, h2, builder.build_chain]
    simp only [builder.unreachableBadDef, builder.WorkflowDef.states,
      builder.WorkflowDef.startAt, builder.alookup, if_pos]
    simp [builder.create_state, builder.StateDef.type_,
      builder.StateDef.functionName, builder.StateDef.next]

/-- C9 amended: building fails with the unsupported-state `StepFunctionError`
whenever the construction traversal from `StartAt` (following `Next` chains
and descending into `Parallel` branches, but not into `Map` iterators)
reaches a state whose `Type` is not Task, Parallel or Map; a definition
merely containing such a state elsewhere can build successfully. -/
theorem c9_amended (fuel : ℕ) (wd : builder.WorkflowDef)
    (h : builder.BadReached fuel wd wd.startAt) :
    builder.create_workflow fuel wd =
      .error (.stepFunctionError builder.unsupportedMsg) := by
  rw [builder.create_workflow, builder.bad_reached_build_error h]

/-- Witness for the amended C9: a definition whose start state has type
`Choice` is reached immediately, and building it errors. -/
theorem c9_witness :
    builder.BadReached 1 builder.startBadDef builder.startBadDef.startAt ∧
    builder.create_workflow 1 builder.startBadDef =
      .error (.stepFunctionError builder.unsupportedMsg) := by
  have hb : builder.BadReached 1 builder.startBadDef
      builder.startBadDef.startAt :=
    builder.BadReached.here 0 builder.startBadDef
      builder.startBadDef.startAt (.mk "Choice" none true none [] none none)
      (by rfl) (by decide) (by decide) (by decide)
  exact ⟨hb, c9_amended 1 builder.startBadDef hb⟩

namespace step_function

theorem alookup_mem {α : Type} :
    ∀ (l : List (String × α)) (k : String) (v : α),
      builder.alookup l k = some v → (k, v) ∈ l
  | [], _, _, h => by cases h
  | (k', v') :: rest, k, v, h => by
    rw [builder.alookup] at h
    by_cases hk : k' = k
    · rw [if_pos hk] at h
      cases h
      subst hk
      exact List.mem_cons_self _ _
    · rw [if_neg hk] at h
      exact List.mem_cons_of_mem _ (alookup_mem rest k v h)

theorem addReduction_mem :
    ∀ (acc : List (String × ℚ)) (n : String) (v : ℚ) (f : String) (r : ℚ),
      (f, r) ∈ addReduction acc n v → f = n ∨ ∃ r', (f, r') ∈ acc
  | [], n, v, f, r, h => by
    rw [addReduction] at h
    rcases List.mem_singleton.mp h with he
    injection he with h1 _
    exact Or.inl h1
  | (k, x) :: rest, n, v, f, r, h => by
    rw [addReduction] at h
    by_cases hk : k = n
    · rw [if_pos hk] at h
      rcases List.mem_cons.mp h with he | hm
      · injection he with h1 _
        subst hk
        exact Or.inl h1
      · exact Or.inr ⟨r, List.mem_cons_of_mem _ hm⟩
    · rw [if_neg hk] at h
      rcases List.mem_cons.mp h with he | hm
      · injection he with h1 h2
        exact Or.inr ⟨x, by rw [h1]; exact List.mem_cons_self _ _⟩
      · rcases addReduction_mem rest n v f r hm with h1 | ⟨r', hr'⟩
        · exact Or.inl h1
        · exact Or.inr ⟨r', List.mem_cons_of_mem _ hr'⟩

theorem foldl_redStep_mem (inc : ℕ) (ts : List Task) :
    ∀ (ids : List ℕ) (acc : List (String × ℚ)) (f : String) (r : ℚ),
      (f, r) ∈ ids.foldl (redStep inc ts) acc →
      (∃ r', (f, r') ∈ acc) ∨
      ∃ id ∈ ids, (taskAt ts id).function_name = f ∧
        (taskAt ts id).memory_size + inc ≤ (taskAt ts id).max_memory_size
  | [], acc, f, r, h => Or.inl ⟨r, h⟩
  | id :: ids, acc, f, r, h => by
    rw [List.foldl_cons] at h
    rcases foldl_redStep_mem inc ts ids (redStep inc ts acc id) f r h with
      ⟨r', hr'⟩ | ⟨id', hid', hfn, hcap⟩
    · rw [redStep] at hr'
      by_cases hc : (taskAt ts id).max_memory_size <
          (taskAt ts id).memory_size + inc
      · rw [if_pos hc] at hr'
        exact Or.inl ⟨r', hr'⟩
      · rw [if_neg hc] at hr'
        rcases addReduction_mem _ _ _ _ _ hr' with h1 | h2
        · exact Or.inr ⟨id, List.mem_cons_self _ _, h1.symm, le_of_not_lt hc⟩
        · exact Or.inl h2
    · exact Or.inr ⟨id', List.mem_cons_of_mem _ hid', hfn, hcap⟩

theorem timeReductions_mem (inc : ℕ) (s : OptState) (f : String) (r : ℚ)
    (h : (f, r) ∈ timeReductions inc s) :
    ∃ id ∈ (get_critical_path s.tasks s.workflow).1,
      (taskAt s.tasks id).function_name = f ∧
      (taskAt s.tasks id).memory_size + inc ≤
        (taskAt s.tasks id).max_memory_size := by
  rcases foldl_redStep_mem inc s.tasks _ [] f r h with ⟨r', hr'⟩ | hfound
  · cases hr'
  · exact hfound

theorem selectBest_spec (cost : String → ℚ) :
    ∀ (l : List (String × ℚ)) (b : Option String) (lo : Option ℚ),
      (selectBest cost l (b, lo) = (b, lo) ∧
        ∀ g rg, (g, rg) ∈ l → 0 < rg → ratioLt (cost g / rg) lo = false) ∨
      (∃ f r l₁ l₂,
        l = l₁ ++ (f, r) :: l₂ ∧ 0 < r ∧
        selectBest cost l (b, lo) = (some f, some (cost f / r)) ∧
        ratioLt (cost f / r) lo = true ∧
        (∀ g rg, (g, rg) ∈ l₁ → 0 < rg → cost f / r < cost g / rg) ∧
        (∀ g rg, (g, rg) ∈ l₂ → 0 < rg → cost f / r ≤ cost g / rg))
  | [], b, lo => Or.inl ⟨rfl, by simp⟩
  | (g, rg) :: rest, b, lo => by
    by_cases hpos : 0 < rg
    · by_cases hlt : ratioLt (cost g / rg) lo = true
      · have hstep : selectBest cost ((g, rg) :: rest) (b, lo) =
            selectBest cost rest (some g, some (cost g / rg)) := by
          rw [selectBest]
          dsimp only
          rw [if_pos hpos, if_pos hlt]
        rcases selectBest_spec cost rest (some g) (some (cost g / rg)) with
          ⟨heq, hall⟩ | ⟨f, r, l₁, l₂, hsplit, hr, hres, hrag, hbef, haft⟩
        · refine Or.inr ⟨g, rg, [], rest, rfl, hpos, ?_, hlt, by simp, ?_⟩
          · rw [hstep, heq]
          · intro g' rg' hmem hpos'
            have hf := hall g' rg' hmem hpos'
            rw [ratioLt] at hf
            simpa using le_of_not_lt (by simpa using hf)
        · refine Or.inr ⟨f, r, (g, rg) :: l₁, l₂, by rw [hsplit]; rfl, hr,
            by rw [hstep, hres], ?_, ?_, haft⟩
          · cases lo with
            | none => rfl
            | some l0 =>
              have h1 : cost f / r < cost g / rg := by
                have := hrag
                rw [ratioLt] at this
                simpa using this
              have h2 : cost g / rg < l0 := by
                have := hlt
                rw [ratioLt] at this
                simpa using this
              rw [ratioLt]
              simpa using lt_trans h1 h2
          · intro g' rg' hmem hpos'
            rcases List.mem_cons.mp hmem with he | hm
            · injection he with he1 he2
              subst he1
              subst he2
              have := hrag
              rw [ratioLt] at this
              simpa using this
            · exact hbef g' rg' hm hpos'
      · have hstep : selectBest cost ((g, rg) :: rest) (b, lo) =
            selectBest cost rest (b, lo) := by
          rw [selectBest]
          dsimp only
          rw [if_pos hpos, if_neg hlt]
        rcases selectBest_spec cost rest b lo with
          ⟨heq, hall⟩ | ⟨f, r, l₁, l₂, hsplit, hr, hres, hrag, hbef, haft⟩
        · refine Or.inl ⟨by rw [hstep, heq], ?_⟩
          intro g' rg' hmem hpos'
          rcases List.mem_cons.mp hmem with he | hm
          · injection he with he1 he2
            subst he1
            subst he2
            exact Bool.eq_false_iff.mpr hlt
          · exact hall g' rg' hm hpos'
        · refine Or.inr ⟨f, r, (g, rg) :: l₁, l₂, by rw [hsplit]; rfl, hr,
            by rw [hstep, hres], hrag, ?_, haft⟩
          intro g' rg' hmem hpos'
          rcases List.mem_cons.mp hmem with he | hm
          · injection he with he1 he2
            subst he1
            subst he2
            cases lo with
            | none => exact absurd rfl hlt
            | some l0 =>
              have h1 : cost f / r < l0 := by
                have := hrag
                rw [ratioLt] at this
                simpa using this
              have h2 : ¬ cost g' / rg' < l0 := by
                have := hlt
                rw [ratioLt] at this
                simpa using this
              exact lt_of_lt_of_le h1 (le_of_not_lt h2)
          · exact hbef g' rg' hm hpos'
    · have hstep : selectBest cost ((g, rg) :: rest) (b, lo) =
          selectBest cost rest (b, lo) := by
        rw [selectBest]
        dsimp only
        rw [if_neg hpos]
      rcases selectBest_spec cost rest b lo with
        ⟨heq, hall⟩ | ⟨f, r, l₁, l₂, hsplit, hr, hres, hrag, hbef, haft⟩
      · refine Or.inl ⟨by rw [hstep, heq], ?_⟩
        intro g' rg' hmem hpos'
        rcases List.mem_cons.mp hmem with he | hm
        · injection he with he1 he2
          subst he1
          subst he2
          exact absurd hpos' hpos
        · exact hall g' rg' hm hpos'
      · refine Or.inr ⟨f, r, (g, rg) :: l₁, l₂, by rw [hsplit]; rfl, hr,
          by rw [hstep, hres], hrag, ?_, haft⟩
        intro g' rg' hmem hpos'
        rcases List.mem_cons.mp hmem with he | hm
        · injection he with he1 he2
          subst he1
          subst he2
          exact absurd hpos' hpos
        · exact hbef g' rg' hm hpos'

theorem chosenFunction_spec (inc : ℕ) (s : OptState) (f : String)
    (h : chosenFunction inc s = some f) :
    ∃ r l₁ l₂,
      timeReductions inc s = l₁ ++ (f, r) :: l₂ ∧ 0 < r ∧
      (∀ g rg, (g, rg) ∈ timeReductions inc s → 0 < rg →
        costOf s f / r ≤ costOf s g / rg) ∧
      (∀ g rg, (g, rg) ∈ l₁ → 0 < rg → costOf s f / r < costOf s g / rg) := by
  rw [chosenFunction] at h
  rcases selectBest_spec (costOf s) (timeReductions inc s) none none with
    ⟨heq, _⟩ | ⟨f', r, l₁, l₂, hsplit, hr, hres, _, hbef, haft⟩
  · rw [heq] at h
    cases h
  · rw [hres] at h
    have hf : f' = f := by
      have h1 : some f' = some f := h
      injection h1
    subst hf
    refine ⟨r, l₁, l₂, hsplit, hr, ?_, hbef⟩
    intro g rg hmem hpos
    rw [hsplit] at hmem
    rcases List.mem_append.mp hmem with hm | hm
    · exact le_of_lt (hbef g rg hm hpos)
    · rcases List.mem_cons.mp hm with he | hm2
      · injection he with he1 he2
        subst he1
        subst he2
        exact le_refl _
      · exact haft g rg hm2 hpos

theorem chosenFunction_none (inc : ℕ) (s : OptState)
    (h : ∀ p ∈ timeReductions inc s, p.2 ≤ 0) :
    chosenFunction inc s = none := by
  rw [chosenFunction]
  rcases selectBest_spec (costOf s) (timeReductions inc s) none none with
    ⟨heq, _⟩ | ⟨f, r, l₁, l₂, hsplit, hr, _, _, _, _⟩
  · rw [heq]
  · exfalso
    have hmem : (f, r) ∈ timeReductions inc s := by
      rw [hsplit]
      exact List.mem_append.mpr (Or.inr (List.mem_cons_self _ _))
    exact absurd hr (not_lt.mpr (h (f, r) hmem))

theorem escalateStep_cases (inc : ℕ) (s : OptState) :
    escalateStep inc s = (s, some ⟨thresholdMsg⟩) ∨
    ∃ f, chosenFunction inc s = some f ∧ f ≠ "" ∧
      escalateStep inc s =
        ({ s with tasks := (bumpTasks inc (dictIds s f) (s.tasks, 0)).1,
                  cost_increases := assocSet s.cost_increases f
                    (bumpTasks inc (dictIds s f) (s.tasks, 0)).2 }, none) := by
  cases hch : chosenFunction inc s with
  | none =>
    left
    simp only [escalateStep, hch]
  | some f =>
    by_cases hf : f = ""
    · left
      simp only [escalateStep, hch]
      rw [if_pos hf]
    · right
      refine ⟨f, rfl, hf, ?_⟩
      simp only [escalateStep, hch]
      rw [if_neg hf]

theorem bumpTasks_length (inc : ℕ) :
    ∀ (ids : List ℕ) (ts : List Task) (c : ℚ),
      (bumpTasks inc ids (ts, c)).1.length = ts.length
  | [], _, _ => rfl
  | id :: ids, ts, c => by
    rw [bumpTasks]
    simp only [bumpTasks_length inc ids, List.length_set]

theorem taskAt_set (ts : List Task) (i j : ℕ) (t : Task) :
    taskAt (ts.set i t) j =
      if i = j ∧ j < ts.length then t else taskAt ts j := by
  unfold taskAt
  by_cases hj : j < ts.length
  · have hj' : j < (ts.set i t).length := by
      rw [List.length_set]
      exact hj
    rw [List.getD_eq_getElem _ _ hj', List.getD_eq_getElem _ _ hj]
    by_cases hij : i = j
    · subst hij
      rw [if_pos ⟨rfl, hj⟩]
      exact List.getElem_set_self hj'
    · rw [if_neg (fun hc => hij hc.1)]
      exact List.getElem_set_ne hij hj'
  · rw [if_neg (fun hc => hj hc.2)]
    rw [List.getD_eq_default, List.getD_eq_default]
    · exact le_of_not_lt hj
    · rw [List.length_set]
      exact le_of_not_lt hj

theorem taskAt_default {ts : List Task} {id : ℕ} (h : ts.length ≤ id) :
    taskAt ts id = default :=
  List.getD_eq_default _ _ h

theorem taskAt_valid_of_name {ts : List Task} {id : ℕ}
    (h : (taskAt ts id).function_name ≠ "") : id < ts.length := by
  by_contra hc
  rw [taskAt_default (le_of_not_lt hc)] at h
  exact h rfl

theorem taskAt_mem {ts : List Task} {j : ℕ} (h : j < ts.length) :
    taskAt ts j ∈ ts := by
  rw [taskAt, List.getD_eq_getElem _ _ h]
  exact List.getElem_mem h

theorem taskAt_of_mem {ts : List Task} {t : Task} (h : t ∈ ts) :
    ∃ j, j < ts.length ∧ taskAt ts j = t := by
  obtain ⟨n, hn, he⟩ := List.getElem_of_mem h
  exact ⟨n, hn, by rw [taskAt, List.getD_eq_getElem _ _ hn, he]⟩

theorem bumpTasks_get (inc : ℕ) :
    ∀ (ids : List ℕ) (ts : List Task) (c : ℚ), ids.Nodup →
      (∀ id ∈ ids, id < ts.length) →
      ∀ j, taskAt (bumpTasks inc ids (ts, c)).1 j =
        if j ∈ ids then (taskAt ts j).increase_memory_size inc
        else taskAt ts j
  | [], ts, c, _, _, j => by simp [bumpTasks]
  | id :: ids, ts, c, hnd, hval, j => by
    rw [bumpTasks]
    have hnd' := (List.nodup_cons.mp hnd).2
    have hid : id < ts.length := hval id (List.mem_cons_self _ _)
    have hval' : ∀ i ∈ ids, i < (ts.set id ((taskAt ts id).increase_memory_size inc)).length := by
      intro i hi
      rw [List.length_set]
      exact hval i (List.mem_cons_of_mem _ hi)
    rw [bumpTasks_get inc ids _ _ hnd' hval' j]
    by_cases hjids : j ∈ ids
    · rw [if_pos hjids, if_pos (List.mem_cons_of_mem _ hjids)]
      have hne : id ≠ j := by
        intro hc
        subst hc
        exact (List.nodup_cons.mp hnd).1 hjids
      rw [taskAt_set, if_neg (fun hc => hne hc.1)]
    · rw [if_neg hjids]
      by_cases hje : j = id
      · subst hje
        rw [if_pos (List.mem_cons_self _ _), taskAt_set, if_pos ⟨rfl, hid⟩]
      · rw [if_neg (fun hc => by
          rcases List.mem_cons.mp hc with h1 | h1
          · exact hje h1
          · exact hjids h1)]
        rw [taskAt_set, if_neg (fun hc => hje hc.1.symm)]

theorem dictIds_entry (s : OptState) (f : String) {id : ℕ}
    (h : id ∈ dictIds s f) :
    (f, dictIds s f) ∈ s.function_tasks_dict := by
  rw [dictIds] at h ⊢
  cases halk : builder.alookup s.function_tasks_dict f with
  | none =>
    rw [halk] at h
    simp at h
  | some v =>
    simpa using alookup_mem _ _ _ halk

theorem chosen_uncapped (inc : ℕ) (s : OptState) (hInv : Inv s) {f : String}
    (hf : chosenFunction inc s = some f) (hne : f ≠ "") :
    ∃ id₀, id₀ < s.tasks.length ∧
      (taskAt s.tasks id₀).function_name = f ∧
      (taskAt s.tasks id₀).memory_size + inc ≤
        (taskAt s.tasks id₀).max_memory_size ∧
      id₀ ∈ dictIds s f := by
  obtain ⟨r, l₁, l₂, hsplit, hr, _, _⟩ := chosenFunction_spec inc s f hf
  have hmem : (f, r) ∈ timeReductions inc s := by
    rw [hsplit]
    exact List.mem_append.mpr (Or.inr (List.mem_cons_self _ _))
  obtain ⟨id₀, _, hfn, hcap⟩ := timeReductions_mem inc s f r hmem
  have hv : id₀ < s.tasks.length :=
    taskAt_valid_of_name (by rw [hfn]; exact hne)
  have hcov := hInv.2.2 id₀ hv
  rw [hfn] at hcov
  exact ⟨id₀, hv, hfn, hcap, hcov⟩

theorem bump_analysis (inc : ℕ) (s : OptState) (hInv : Inv s) {f : String}
    (hf : chosenFunction inc s = some f) (hne : f ≠ "") :
    (∀ j, taskAt (bumpTasks inc (dictIds s f) (s.tasks, 0)).1 j =
        if j ∈ dictIds s f then (taskAt s.tasks j).increase_memory_size inc
        else taskAt s.tasks j) ∧
    (bumpTasks inc (dictIds s f) (s.tasks, 0)).1.length = s.tasks.length ∧
    (∀ id ∈ dictIds s f, id < s.tasks.length ∧
      (taskAt s.tasks id).function_name = f ∧
      (taskAt s.tasks id).memory_size + inc ≤
        (taskAt s.tasks id).max_memory_size) ∧
    dictIds s f ≠ [] := by
  obtain ⟨id₀, hv₀, hfn₀, hcap₀, hmem₀⟩ := chosen_uncapped inc s hInv hf hne
  have hentry := dictIds_entry s f hmem₀
  obtain ⟨hval, hnd, hunif⟩ := hInv.2.1 _ hentry
  have hids : ∀ id ∈ dictIds s f, id < s.tasks.length ∧
      (taskAt s.tasks id).function_name = f ∧
      (taskAt s.tasks id).memory_size + inc ≤
        (taskAt s.tasks id).max_memory_size := by
    intro id hid
    obtain ⟨h1, h2⟩ := hval id hid
    obtain ⟨hmeq, hxeq⟩ := hunif id hid id₀ hmem₀
    exact ⟨h1, h2, by rw [hmeq, hxeq]; exact hcap₀⟩
  refine ⟨?_, bumpTasks_length inc _ _ _, hids,
    fun hnil => by rw [hnil] at hmem₀; cases hmem₀⟩
  exact bumpTasks_get inc _ _ _ hnd (fun id hid => (hids id hid).1)

theorem escalateStep_inv (inc : ℕ) (s : OptState) (hInv : Inv s) :
    Inv (escalateStep inc s).1 := by
  rcases escalateStep_cases inc s with herr | ⟨f, hf, hne, hstep⟩
  · rw [herr]
    exact hInv
  · rw [hstep]
    obtain ⟨hget, hlen, hids, _⟩ := bump_analysis inc s hInv hf hne
    refine ⟨?_, ?_, ?_⟩
    · intro t ht
      obtain ⟨j, hj, rfl⟩ := taskAt_of_mem ht
      rw [hlen] at hj
      rw [hget j]
      by_cases hjids : j ∈ dictIds s f
      · rw [if_pos hjids]
        have hb := hInv.1 (taskAt s.tasks j) (taskAt_mem hj)
        have hcap := (hids j hjids).2.2
        unfold Task.increase_memory_size
        exact ⟨le_trans hb.1 (Nat.le_add_right _ _), hcap⟩
      · rw [if_neg hjids]
        exact hInv.1 _ (taskAt_mem hj)
    · intro p hp
      have hp' := hInv.2.1 p hp
      refine ⟨?_, hp'.2.1, ?_⟩
      · intro id hid
        have h1 := hp'.1 id hid
        refine ⟨by rw [hlen]; exact h1.1, ?_⟩
        rw [hget id]
        by_cases hidids : id ∈ dictIds s f
        · rw [if_pos hidids]
          unfold Task.increase_memory_size
          exact h1.2
        · rw [if_neg hidids]
          exact h1.2
      · intro i hi j hj
        have hsame : i ∈ dictIds s f ↔ j ∈ dictIds s f := by
          by_cases hpf : p.1 = f
          · subst hpf
            constructor
            · intro _
              have hcov := hInv.2.2 j (hp'.1 j hj).1
              rw [(hp'.1 j hj).2] at hcov
              exact hcov
            · intro _
              have hcov := hInv.2.2 i (hp'.1 i hi).1
              rw [(hp'.1 i hi).2] at hcov
              exact hcov
          · constructor
            · intro hin
              exact absurd ((hp'.1 i hi).2.symm.trans (hids i hin).2.1) hpf
            · intro hin
              exact absurd ((hp'.1 j hj).2.symm.trans (hids j hin).2.1) hpf
        rw [hget i, hget j]
        by_cases hiin : i ∈ dictIds s f
        · rw [if_pos hiin, if_pos (hsame.mp hiin)]
          obtain ⟨hm, hx⟩ := hp'.2.2 i hi j hj
          unfold Task.increase_memory_size
          exact ⟨by rw [hm], hx⟩
        · rw [if_neg hiin, if_neg (fun hc => hiin (hsame.mpr hc))]
          exact hp'.2.2 i hi j hj
    · intro id hid
      rw [hlen] at hid
      have hfn : (taskAt (bumpTasks inc (dictIds s f) (s.tasks, 0)).1
          id).function_name = (taskAt s.tasks id).function_name := by
        rw [hget id]
        split
        · rfl
        · rfl
      rw [hfn]
      exact hInv.2.2 id hid

theorem bump_headroom (inc : ℕ) (hpos : 0 < inc) (s : OptState)
    (hInv : Inv s) {f : String} (hf : chosenFunction inc s = some f)
    (hne : f ≠ "") :
    headroom inc
      { s with tasks := (bumpTasks inc (dictIds s f) (s.tasks, 0)).1,
               cost_increases := assocSet s.cost_increases f
                 (bumpTasks inc (dictIds s f) (s.tasks, 0)).2 } <
      headroom inc s := by
  obtain ⟨hget, _, hids, hnnil⟩ := bump_analysis inc s hInv hf hne
  obtain ⟨id₀, _, _, _, hmem₀⟩ := chosen_uncapped inc s hInv hf hne
  have hentry := dictIds_entry s f hmem₀
  rw [headroom, headroom]
  apply List.sum_lt_sum
  · intro p hp
    cases hq : p.2 with
    | nil => simp [entryHeadroom]
    | cons id rest =>
      simp only [entryHeadroom]
      rw [hget id]
      by_cases hin : id ∈ dictIds s f
      · rw [if_pos hin]
        unfold Task.increase_memory_size
        dsimp only
        apply Nat.div_le_div_right
        omega
      · rw [if_neg hin]
  · refine ⟨(f, dictIds s f), hentry, ?_⟩
    obtain ⟨id₁, rest, hcons⟩ := List.exists_cons_of_ne_nil hnnil
    have hin : id₁ ∈ dictIds s f := by
      rw [hcons]
      exact List.mem_cons_self _ _
    have hl := congrArg
      (fun l => entryHeadroom inc (bumpTasks inc (dictIds s f) (s.tasks, 0)).1 l)
      hcons
    have hr := congrArg (fun l => entryHeadroom inc s.tasks l) hcons
    dsimp only at hl hr
    show entryHeadroom inc (bumpTasks inc (dictIds s f) (s.tasks, 0)).1
        (dictIds s f) < entryHeadroom inc s.tasks (dictIds s f)
    rw [hl, hr]
    simp only [entryHeadroom]
    rw [hget id₁, if_pos hin]
    unfold Task.increase_memory_size
    dsimp only
    obtain ⟨_, _, hcap⟩ := hids id₁ hin
    have h1 : (taskAt s.tasks id₁).max_memory_size -
        (taskAt s.tasks id₁).memory_size =
      ((taskAt s.tasks id₁).max_memory_size -
        ((taskAt s.tasks id₁).memory_size + inc)) + inc := by omega
    rw [h1, Nat.add_div_right _ hpos]
    omega

theorem headroomInit_eq (inc : ℕ) (s : OptState) (hInv : Inv s)
    (hini : ∀ t ∈ s.tasks, t.memory_size = t.initial_memory_size) :
    headroomInit inc s = headroom inc s := by
  rw [headroomInit, headroom]
  congr 1
  apply List.map_congr_left
  intro p hp
  cases hq : p.2 with
  | nil => rfl
  | cons id rest =>
    simp only [entryHeadroomInit, entryHeadroom]
    have hv := (hInv.2.1 p hp).1 id (by rw [hq]; exact List.mem_cons_self _ _)
    rw [hini (taskAt s.tasks id) (taskAt_mem hv.1)]

theorem escalateLoop_inv (inc : ℕ) (thr : ℚ) :
    ∀ (fuel : ℕ) (s : OptState), Inv s →
      ∀ r, escalateLoop inc thr fuel s = some r → Inv r.1
  | fuel, s, hInv, r, h => by
    rw [escalateLoop.eq_def] at h
    by_cases hc : (get_critical_path s.tasks s.workflow).2 ≤ thr
    · rw [if_pos hc] at h
      cases h
      exact hInv
    · rw [if_neg hc] at h
      match fuel, h with
      | fuel' + 1, h =>
        rcases hst : escalateStep inc s with ⟨s', e?⟩
        rw [hst] at h
        have hInv' : Inv s' := by
          have := escalateStep_inv inc s hInv
          rw [hst] at this
          exact this
        cases e? with
        | some e =>
          cases h
          exact hInv'
        | none =>
          exact escalateLoop_inv inc thr fuel' s' hInv' r h

theorem get_critical_path_nil (ts : List Task) :
    get_critical_path ts .nil = ([], 0) := by
  rw [get_critical_path]

theorem get_critical_path_task (ts : List Task) (id : ℕ) (rest : Workflow) :
    get_critical_path ts (.task id rest) =
      (id :: (get_critical_path ts rest).1,
        (taskAt ts id).get_execution_time + (get_critical_path ts rest).2) := by
  rw [get_critical_path]

theorem get_critical_path_parallel (ts : List Task) (bs : List Workflow)
    (rest : Workflow) :
    get_critical_path ts (.parallel bs rest) =
      ((pickMax (bs.map (get_critical_path ts))).1 ++
          (get_critical_path ts rest).1,
        (pickMax (bs.map (get_critical_path ts))).2 +
          (get_critical_path ts rest).2) := by
  rw [get_critical_path]
  rw [List.attach_map_coe]

theorem get_critical_path_mapState (ts : List Task) (its : List Workflow)
    (rest : Workflow) :
    get_critical_path ts (.mapState its rest) =
      ((pickMax (its.map (get_critical_path ts))).1 ++
          (get_critical_path ts rest).1,
        (pickMax (its.map (get_critical_path ts))).2 +
          (get_critical_path ts rest).2) := by
  rw [get_critical_path]
  rw [List.attach_map_coe]

theorem escalateStep_dichotomy (inc : ℕ) (s : OptState) :
    ((escalateStep inc s).2).isSome = true ∨
    ∃ f r, chosenFunction inc s = some f ∧
      (f, r) ∈ timeReductions inc s ∧ 0 < r := by
  rcases escalateStep_cases inc s with herr | ⟨f, hf, hne, hstep⟩
  · left
    rw [herr]
    rfl
  · right
    obtain ⟨r, l₁, l₂, hsplit, hr, _, _⟩ := chosenFunction_spec inc s f hf
    refine ⟨f, r, hf, ?_, hr⟩
    rw [hsplit]
    exact List.mem_append.mpr (Or.inr (List.mem_cons_self _ _))

theorem escalateLoop_total (inc : ℕ) (thr : ℚ) (hpos : 0 < inc) :
    ∀ (fuel : ℕ) (s : OptState), Inv s → headroom inc s < fuel →
      escalateLoop inc thr fuel s ≠ none
  | fuel, s, hInv, hfuel => by
    rw [escalateLoop.eq_def]
    by_cases hc : (get_critical_path s.tasks s.workflow).2 ≤ thr
    · rw [if_pos hc]
      exact Option.some_ne_none _
    · rw [if_neg hc]
      match fuel, hfuel with
      | fuel' + 1, hfuel =>
        rcases escalateStep_cases inc s with herr | ⟨f, hf, hne, hstep⟩
        · rw [herr]
          exact Option.some_ne_none _
        · rw [hstep]
          have hInv' : Inv (escalateStep inc s).1 := escalateStep_inv inc s hInv
          rw [hstep] at hInv'
          have hdec := bump_headroom inc hpos s hInv hf hne
          exact escalateLoop_total inc thr hpos fuel' _ hInv'
            (Nat.lt_of_lt_of_le hdec (Nat.lt_succ_iff.mp hfuel))

end step_function

/-- C1: under the well-formedness invariant established by per-function
optimization (task memories between initial and max, dict entries valid and
per-function uniform), every task still satisfies
`initial_memory_size ≤ memory_size ≤ max_memory_size` after any single
Escalator iteration — in particular after the chosen function's bump of
every task — and after the whole loop, whatever its outcome. -/
theorem c1_memory_bounds (inc : ℕ) (s : step_function.OptState)
    (hInv : step_function.Inv s) :
    (∀ t ∈ (step_function.escalateStep inc s).1.tasks,
        t.initial_memory_size ≤ t.memory_size ∧
        t.memory_size ≤ t.max_memory_size) ∧
    ∀ (thr : ℚ) (fuel : ℕ)
      (r : step_function.OptState × Option step_function.StepFunctionError),
      step_function.escalateLoop inc thr fuel s = some r →
      ∀ t ∈ r.1.tasks,
        t.initial_memory_size ≤ t.memory_size ∧
        t.memory_size ≤ t.max_memory_size :=
  ⟨(step_function.escalateStep_inv inc s hInv).1,
   fun thr fuel r hr =>
     (step_function.escalateLoop_inv inc thr fuel s hInv r hr).1⟩

/-- Witness for C1 at a one-task state. -/
theorem c1_witness :
    step_function.Inv step_function.wState1 ∧
    ∀ t ∈ (step_function.escalateStep 128 step_function.wState1).1.tasks,
      t.initial_memory_size ≤ t.memory_size ∧
      t.memory_size ≤ t.max_memory_size := by
  have hInv : step_function.Inv step_function.wState1 := by
    refine ⟨?_, ?_, ?_⟩ <;> decide
  exact ⟨hInv, (c1_memory_bounds 128 step_function.wState1 hInv).1⟩

/-- C4: when an Escalator iteration selects a function, that function has
strictly positive accumulated time reduction, it minimizes
`cost_increase[f] / time_reduction[f]` over all positive-reduction
functions, and on ties the first-seen function wins: every entry before the
chosen one in the `time_reductions` dict (insertion order = order of first
appearance on the critical path) has strictly greater ratio. -/
theorem c4_lowest_ratio_first (inc : ℕ) (s : step_function.OptState)
    (f : String) (h : step_function.chosenFunction inc s = some f) :
    ∃ r l₁ l₂,
      step_function.timeReductions inc s = l₁ ++ (f, r) :: l₂ ∧ 0 < r ∧
      (∀ g rg, (g, rg) ∈ step_function.timeReductions inc s → 0 < rg →
        step_function.costOf s f / r ≤ step_function.costOf s g / rg) ∧
      (∀ g rg, (g, rg) ∈ l₁ → 0 < rg →
        step_function.costOf s f / r < step_function.costOf s g / rg) :=
  step_function.chosenFunction_spec inc s f h

/-- C6: when no function has strictly positive accumulated time reduction
(in particular when every critical-path task is at its cap), the iteration
raises the infeasibility `StepFunctionError` and leaves the state — hence
every task's memory — unchanged, and the loop surfaces the error. -/
theorem c6_no_reduction_infeasible (inc : ℕ) (s : step_function.OptState)
    (h : ∀ p ∈ step_function.timeReductions inc s, p.2 ≤ 0) :
    step_function.escalateStep inc s =
      (s, some ⟨step_function.thresholdMsg⟩) ∧
    ∀ (thr : ℚ) (fuel : ℕ),
      thr < (step_function.get_critical_path s.tasks s.workflow).2 →
      step_function.escalateLoop inc thr (fuel + 1) s =
        some (s, some ⟨step_function.thresholdMsg⟩) := by
  have hch := step_function.chosenFunction_none inc s h
  have hstep : step_function.escalateStep inc s =
      (s, some ⟨step_function.thresholdMsg⟩) := by
    simp only [step_function.escalateStep, hch]
  refine ⟨hstep, fun thr fuel hthr => ?_⟩
  rw [step_function.escalateLoop.eq_def, if_neg (not_le.mpr hthr)]
  simp only [hstep]

/-- C8: running the Escalator on a workflow whose critical-path time is
already at or below the threshold is a no-op: with any fuel (even 0) the
loop returns the state unchanged with no error, and
`optimize_whole_step_function` performs only the `cost_increases`
initialization, leaving every task (hence every `memory_size`) unchanged. -/
theorem c8_noop_below_threshold (inc : ℕ) (thr : ℚ)
    (s : step_function.OptState)
    (h : (step_function.get_critical_path s.tasks s.workflow).2 ≤ thr) :
    (∀ fuel, step_function.escalateLoop inc thr fuel s = some (s, none)) ∧
    step_function.optimize_whole_step_function inc (some thr) 0 s =
      some
        ({ s with
            cost_increases :=
              step_function.initCostIncreases inc s.tasks
                s.function_tasks_dict },
          none) := by
  refine ⟨fun fuel => ?_, ?_⟩
  · rw [step_function.escalateLoop.eq_def, if_pos h]
  · rw [step_function.optimize_whole_step_function]
    rw [step_function.escalateLoop.eq_def, if_pos h]

/-- C3 corrected, part for the iteration-count bound and what an iteration
actually guarantees: each loop iteration either raises the infeasibility
error or bumps a function whose accumulated critical-path time reduction is
strictly positive (the critical-path time itself need not strictly
decrease), and with fuel exceeding the per-function headroom sum
`Σ_f (max_memory − initial_memory) / increment` taken at loop entry (where
`memory_size = initial_memory_size`), the loop always terminates — so at
most that many memory-bumping iterations can occur. -/
theorem c3_amended (inc : ℕ) (hpos : 0 < inc) (s : step_function.OptState)
    (hInv : step_function.Inv s)
    (hini : ∀ t ∈ s.tasks, t.memory_size = t.initial_memory_size)
    (thr : ℚ) (fuel : ℕ)
    (hfuel : step_function.headroomInit inc s < fuel) :
    (∀ s' : step_function.OptState,
        ((step_function.escalateStep inc s').2).isSome = true ∨
        ∃ f r, step_function.chosenFunction inc s' = some f ∧
          (f, r) ∈ step_function.timeReductions inc s' ∧ 0 < r) ∧
    step_function.escalateLoop inc thr fuel s ≠ none := by
  refine ⟨fun s' => step_function.escalateStep_dichotomy inc s', ?_⟩
  have heq := step_function.headroomInit_eq inc s hInv hini
  exact step_function.escalateLoop_total inc thr hpos fuel s hInv
    (by rw [← heq]; exact hfuel)

/-- Witness for C6 at the spec's infeasibility scenario: one task at its
cap, time 80, threshold 50. -/
theorem c6_witness :
    (∀ p ∈ step_function.timeReductions 128 step_function.infState,
        p.2 ≤ 0) ∧
    step_function.escalateStep 128 step_function.infState =
      (step_function.infState, some ⟨step_function.thresholdMsg⟩) ∧
    step_function.escalateLoop 128 50 1 step_function.infState =
      some (step_function.infState, some ⟨step_function.thresholdMsg⟩) := by
  have hred : step_function.timeReductions 128 step_function.infState = [] := by
    simp [step_function.timeReductions, step_function.get_critical_path_task,
      step_function.get_critical_path_nil, step_function.infState,
      step_function.infTask, step_function.taskAt, step_function.redStep]
  have h : ∀ p ∈ step_function.timeReductions 128 step_function.infState,
      p.2 ≤ 0 := by
    rw [hred]
    simp
  have hcp : (step_function.get_critical_path step_function.infState.tasks
      step_function.infState.workflow).2 = 80 := by
    simp [step_function.get_critical_path_task,
      step_function.get_critical_path_nil, step_function.infState,
      step_function.infTask, step_function.taskAt,
      step_function.Task.get_execution_time,
      step_function.Task.get_execution_time_at]
  refine ⟨h, (c6_no_reduction_infeasible 128 _ h).1, ?_⟩
  have h2 := (c6_no_reduction_infeasible 128 _ h).2 50 0
    (by rw [hcp]; norm_num)
  simpa using h2

/-- Witness for C8 at a one-task state with time 10 and threshold 20. -/
theorem c8_witness :
    (step_function.get_critical_path step_function.wState1.tasks
        step_function.wState1.workflow).2 ≤ 20 ∧
    step_function.escalateLoop 128 20 0 step_function.wState1 =
      some (step_function.wState1, none) := by
  have hcp : (step_function.get_critical_path step_function.wState1.tasks
      step_function.wState1.workflow).2 = 10 := by
    simp [step_function.get_critical_path_task,
      step_function.get_critical_path_nil, step_function.wState1,
      step_function.wTask1, step_function.taskAt,
      step_function.Task.get_execution_time,
      step_function.Task.get_execution_time_at]
  have h : (step_function.get_critical_path step_function.wState1.tasks
      step_function.wState1.workflow).2 ≤ 20 := by
    rw [hcp]
    norm_num
  exact ⟨h, (c8_noop_below_threshold 128 20 step_function.wState1 h).1 0⟩

/-- Witness for C4 at the spec's ratio scenario: reductions F = 50 and
G = 20, cost increases 10 and 2, ratios 0.2 and 0.1: G is chosen. -/
theorem c4_witness :
    step_function.chosenFunction 128 step_function.ratState = some "G" ∧
    ∃ r l₁ l₂,
      step_function.timeReductions 128 step_function.ratState =
        l₁ ++ ("G", r) :: l₂ ∧ 0 < r ∧
      (∀ g rg, (g, rg) ∈ step_function.timeReductions 128
          step_function.ratState → 0 < rg →
        step_function.costOf step_function.ratState "G" / r ≤
          step_function.costOf step_function.ratState g / rg) ∧
      (∀ g rg, (g, rg) ∈ l₁ → 0 < rg →
        step_function.costOf step_function.ratState "G" / r <
          step_function.costOf step_function.ratState g / rg) := by
  have hred : step_function.timeReductions 128 step_function.ratState =
      [("F", 50), ("G", 20)] := by
    simp [step_function.timeReductions, step_function.get_critical_path_task,
      step_function.get_critical_path_nil, step_function.ratState,
      step_function.ratTaskF, step_function.ratTaskG, step_function.taskAt,
      step_function.redStep, step_function.addReduction,
      step_function.Task.get_execution_time,
      step_function.Task.get_execution_time_at]
    norm_num
  have hch : step_function.chosenFunction 128 step_function.ratState =
      some "G" := by
    rw [step_function.chosenFunction, hred]
    simp [step_function.selectBest, step_function.ratioLt,
      step_function.costOf, builder.alookup, step_function.ratState]
    norm_num
  exact ⟨hch, c4_lowest_ratio_first 128 step_function.ratState "G" hch⟩

/-- Witness for the amended C3 at a one-task state: the headroom bound is 1,
so fuel 2 suffices for the loop to terminate. -/
theorem c3_witness :
    step_function.Inv step_function.wState1 ∧
    (∀ t ∈ step_function.wState1.tasks,
        t.memory_size = t.initial_memory_size) ∧
    step_function.headroomInit 128 step_function.wState1 < 2 ∧
    step_function.escalateLoop 128 5 2 step_function.wState1 ≠ none := by
  have hInv : step_function.Inv step_function.wState1 := by
    refine ⟨?_, ?_, ?_⟩ <;> decide
  have hini : ∀ t ∈ step_function.wState1.tasks,
      t.memory_size = t.initial_memory_size := by decide
  have hhr : step_function.headroomInit 128 step_function.wState1 < 2 := by
    decide
  exact ⟨hInv, hini, hhr,
    (c3_amended 128 (by norm_num) step_function.wState1 hInv hini 5 2 hhr).2⟩

/-- C3 is false as stated: in this two-branch Parallel both branches take
100 ms; the critical path is the first branch (function F, bumpable), the
iteration succeeds and bumps F (no infeasibility error), yet the
critical-path time after the iteration is still 100 ms — the tie shifts the
critical path to the G branch — so the iteration neither strictly decreases
the critical-path time nor exits with an error. -/
theorem c3_counterexample :
    (step_function.escalateStep 128 step_function.cexState).2 = none ∧
    (step_function.get_critical_path step_function.cexState.tasks
        step_function.cexState.workflow).2 = 100 ∧
    (step_function.get_critical_path
        (step_function.escalateStep 128 step_function.cexState).1.tasks
        (step_function.escalateStep 128 step_function.cexState).1.workflow).2
      = 100 ∧
    (50 : ℚ) < 100 := by
  have hcp : step_function.get_critical_path step_function.cexState.tasks
      step_function.cexState.workflow = ([0], 100) := by
    simp [step_function.get_critical_path_parallel,
      step_function.get_critical_path_task,
      step_function.get_critical_path_nil, step_function.pickMax,
      step_function.cexState, step_function.cexTaskF, step_function.cexTaskG,
      step_function.taskAt, step_function.Task.get_execution_time,
      step_function.Task.get_execution_time_at]
  have hred : step_function.timeReductions 128 step_function.cexState =
      [("F", 10)] := by
    rw [step_function.timeReductions, hcp]
    simp [step_function.redStep, step_function.addReduction,
      step_function.cexState, step_function.cexTaskF, step_function.cexTaskG,
      step_function.taskAt, step_function.Task.get_execution_time,
      step_function.Task.get_execution_time_at]
    norm_num
  have hch : step_function.chosenFunction 128 step_function.cexState =
      some "F" := by
    rw [step_function.chosenFunction, hred]
    simp [step_function.selectBest, step_function.ratioLt]
  have hstep : step_function.escalateStep 128 step_function.cexState =
      ({ step_function.cexState with
          tasks := (step_function.bumpTasks 128
            (step_function.dictIds step_function.cexState "F")
            (step_function.cexState.tasks, 0)).1,
          cost_increases := step_function.assocSet
            step_function.cexState.cost_increases "F"
            (step_function.bumpTasks 128
              (step_function.dictIds step_function.cexState "F")
              (step_function.cexState.tasks, 0)).2 }, none) := by
    simp only [step_function.escalateStep, hch]
    rw [if_neg (by decide)]
  have htasks : (step_function.escalateStep 128
      step_function.cexState).1.tasks =
      [{ step_function.cexTaskF with memory_size := 256 },
        step_function.cexTaskG] := by
    rw [hstep]
    simp [step_function.bumpTasks, step_function.dictIds, builder.alookup,
      step_function.cexState, step_function.taskAt,
      step_function.Task.increase_memory_size, step_function.cexTaskF]
  have hwf : (step_function.escalateStep 128
      step_function.cexState).1.workflow = step_function.cexState.workflow := by
    rw [hstep]
  refine ⟨by rw [hstep], by rw [hcp], ?_, by norm_num⟩
  rw [htasks, hwf]
  simp [step_function.get_critical_path_parallel,
    step_function.get_critical_path_task,
    step_function.get_critical_path_nil, step_function.pickMax,
    step_function.cexState, step_function.cexTaskF, step_function.cexTaskG,
    step_function.taskAt, step_function.Task.get_execution_time,
    step_function.Task.get_execution_time_at]
  norm_num

